import Mathlib

/-!
# Verification of the hive-asar archive library

Shallow embedding of the core of `hive-asar` (an asynchronous reader/writer
for Electron's asar archive format) and proofs about it.

Embedded source files: `src/lib.rs` (path splitting), `src/header.rs`
(directory tree, file metadata, `FilePosition` (de)serialization),
`src/archive.rs` (`Archive::new`, `Archive::read`, the `File` sub-stream with
its seek state machine and `check_integrity`) and `src/writer.rs`
(`Writer::add`/`add_with_options`, `Writer::write`,
`add_sized_with_integrity`).

Modelling conventions:
* Byte streams are `List Nat` (each element a byte value).
* `u64`/`u32` values are `Nat`; where Rust performs a wrapping cast or a
  wrapping subtraction, the model applies the corresponding arithmetic on
  `Nat`/`Int` explicitly (`u64sub`, `negAsU64`, `u64AsI64`, `% 2^32`).
* Rust `HashMap<Box<str>, Entry>` is modelled as an association list
  (`List (String × Entry)`); the map operations used by the source
  (`get`, `entry().or_insert_with`, `insert`) are modelled by
  first-occurrence lookup, append and in-place replacement.
* Panics (slice index out of bounds, `expect`, `assert!`, `unreachable!`)
  are modelled as `none`/dedicated result constructors, never as total
  stand-ins.
* External collaborators (serde_json's byte codec, the sha2 SHA-256
  implementation, Rust's `str::parse::<u64>`) are not code of this
  repository; serde_json and SHA-256 are taken as parameters of the
  definitions that call them, and `str::parse::<u64>` is modelled by
  `parseU64` following its documented decimal syntax.
-/

namespace Asar

/-- `2^64`, the modulus of Rust `u64` arithmetic. -/
def U64MOD : Nat := 18446744073709551616

/-- `2^32`, the modulus of Rust `u32` arithmetic. -/
def U32MOD : Nat := 4294967296

/-- Wrapping `u64` subtraction (release-mode semantics of `a - b` for
operands below `2^64`). -/
def u64sub (a b : Nat) : Nat := if b ≤ a then a - b else a + U64MOD - b

/-- The Rust expression `-pos as u64` for `pos : i64`: two's complement
negation reinterpreted as an unsigned 64-bit value. -/
def negAsU64 (pos : Int) : Nat := ((-pos) % (U64MOD : Int)).toNat

/-- The Rust cast `x as i64` for `x : u64` (reinterpretation of a value
below `2^64`). -/
def u64AsI64 (n : Nat) : Int := if n < 9223372036854775808 then (n : Int) else (n : Int) - (U64MOD : Int)

/-- Little-endian 32-bit encoding of `n % 2^32`, as written by
`write_u32_le`. -/
def le32 (n : Nat) : List Nat :=
  [n % 256, n / 256 % 256, n / 65536 % 256, n / 16777216 % 256]

/-- Little-endian 32-bit decoding of the first four bytes of a stream, as
read by `read_u32_le` (callers establish that four bytes are available). -/
def readLE32 : List Nat → Nat
  | b0 :: b1 :: b2 :: b3 :: _ => b0 + 256 * b1 + 65536 * b2 + 16777216 * b3
  | _ => 0

/-! ## Header model (`src/header.rs`) -/

/-- `Algorithm` (header.rs): hashing algorithm; only SHA256. -/
inductive Algorithm where
  | SHA256
  deriving DecidableEq, Repr

/-- `Integrity` (header.rs): whole-file hash plus per-block hashes.
`Hash` (a `Vec<u8>`) is modelled as `List Nat`. -/
structure Integrity where
  algorithm : Algorithm
  hash : List Nat
  block_size : Nat
  blocks : List (List Nat)
  deriving DecidableEq, Repr

/-- `FilePosition` (header.rs): stored offset or unpacked. -/
inductive FilePosition where
  | offset (k : Nat)
  | unpacked
  deriving DecidableEq, Repr

/-- `FileMetadata` (header.rs). -/
structure FileMetadata where
  pos : FilePosition
  size : Nat
  executable : Bool
  integrity : Option Integrity
  deriving DecidableEq, Repr

/-- `Entry` (header.rs): file or directory. The `Directory` struct's
single field `files : HashMap<Box<str>, Entry>` is inlined as an
association list. -/
inductive Entry where
  | file (meta : FileMetadata)
  | directory (files : List (String × Entry))

/-- A directory's contents (the `files` field of `Directory`). -/
abbrev DirectoryL := List (String × Entry)

/-- First-occurrence association-list lookup, modelling `HashMap::get`. -/
def lookupA (k : String) : DirectoryL → Option Entry
  | [] => none
  | (k', e) :: tl => if k' = k then some e else lookupA k tl

/-- Replace the binding of `k` (used to write back a modified
subdirectory, modelling mutation through `entry()`). -/
def updateA (k : String) (v : Entry) : DirectoryL → DirectoryL
  | [] => []
  | (k', e) :: tl => if k' = k then (k', v) :: tl else (k', e) :: updateA k v tl

mutual

/-- `Entry::search_segments` (header.rs lines 25-31): empty segment list
yields the entry itself; descending into a file fails; descending into a
directory looks the head segment up and recurses. -/
def eSearch : Entry → List String → Option Entry
  | e, [] => some e
  | .file _, _ :: _ => none
  | .directory files, s :: rest => dSearch files s rest

/-- Lookup of `s` in a directory followed by `eSearch` on the rest
(the `files.get(segments[0]).and_then(...)` composition, with the
lookup inlined for structural recursion). -/
def dSearch : DirectoryL → String → List String → Option Entry
  | [], _, _ => none
  | (k, e) :: tl, s, rest => if k = s then eSearch e rest else dSearch tl s rest

end

/-- `Directory::search_segments` (header.rs lines 204-208) indexes
`segments[0]` unconditionally: on an empty segment list the Rust code
panics (slice index out of bounds), modelled by `none`; otherwise the
result is `some` of the ordinary search result. -/
def dirSearchSegments (files : DirectoryL) (segments : List String) : Option (Option Entry) :=
  match segments with
  | [] => none
  | s :: rest => some (dSearch files s rest)

/-! ## Path splitting (`src/lib.rs`) -/

/-- Split a character list on a separator; mirrors Rust `str::split` on a
single char (so the empty string yields one empty token). -/
def splitCharList (sep : Char) (l : List Char) : List (List Char) :=
  match l with
  | [] => [[]]
  | c :: rest =>
    match splitCharList sep rest with
    | [] => [[]]
    | h :: t => if c = sep then [] :: h :: t else (c :: h) :: t

/-- `split_path` (lib.rs lines 38-50): split on `/`, drop empty and `.`
segments, pop the last kept segment on `..`. -/
def split_path (path : String) : List String :=
  (((splitCharList '/' path.data).map String.mk).filter
      (fun x => !(x == "" || x == "."))).foldl
    (fun r s => if s == ".." then r.dropLast else r ++ [s]) []

/-! ## `FilePosition` deserialization (`src/header.rs` lines 113-128) -/

/-- Serde deserialization errors produced while parsing a file record's
position field. The constructors stand for the exact Rust diagnostics:
* `gotBothUnpackedAndOffset` — `Error::custom` with message
  `got both 'unpacked' and 'offset' field`;
* `invalidValueStr got expected` — `Error::invalid_value(Unexpected::Str got, expected)`;
* `invalidValueBool got expected` — `Error::invalid_value(Unexpected::Bool got, expected)`;
* `noVariantMatched` — serde's generic untagged-enum failure when neither
  `Helper` variant applies. -/
inductive DeError where
  | gotBothUnpackedAndOffset
  | invalidValueStr (got : String) (expected : String)
  | invalidValueBool (got : Bool) (expected : String)
  | noVariantMatched
  deriving DecidableEq, Repr

/-- Model of Rust `str::parse::<u64>` (external standard library):
an optional leading `+`, then one or more ASCII digits, value below
`2^64`. -/
def parseU64 (s : String) : Option Nat :=
  let l0 := s.data
  let l := if l0.head? = some '+' then l0.tail else l0
  if l.isEmpty then none
  else if l.all Char.isDigit then
    let n := l.foldl (fun a c => a * 10 + (c.toNat - 48)) 0
    if n < U64MOD then some n else none
  else none

/-- `impl Deserialize for FilePosition` (header.rs lines 113-128), after the
untagged `Helper` enum has classified the two relevant JSON fields.
The input is the typed content of the record's `unpacked` and `offset`
fields (`none` = absent). `Helper`'s first variant matches whenever
`offset` is present (with `unpacked` optional); its second variant
requires `unpacked`. -/
def filePositionDeser (unpacked : Option Bool) (offset : Option String) :
    Except DeError FilePosition :=
  match offset with
  | some off =>
    if unpacked = some true then .error .gotBothUnpackedAndOffset
    else
      match parseU64 off with
      | some n => .ok (.offset n)
      | none => .error (.invalidValueStr off "valid u64 string")
  | none =>
    match unpacked with
    | some true => .ok .unpacked
    | some false => .error (.invalidValueBool false "true")
    | none => .error .noVariantMatched

/-! ## Writer (`src/writer.rs`) -/

/-- `Writer` state (writer.rs lines 33-37): header tree, running offset,
and the queued payloads. Each queued payload is the Rust `Take<F>`
`content.take(size)`: the source's byte stream paired with the declared
size (the take limit). -/
structure WriterS where
  header : DirectoryL
  file_offset : Nat
  files : List (List Nat × Nat)

/-- The empty writer (`Writer::new` / `Default`, writer.rs lines 208-216). -/
def emptyWriter : WriterS := ⟨[], 0, []⟩

/-- `Writer::add_folder_recursively` followed by the terminal
`files.insert` of `add_with_options`, as one recursive insertion:
walk `segs` creating missing directories (`entry().or_insert_with`),
then insert `(name, e)`. `none` models the panics: `unreachable!()` when
an intermediate segment is an existing file, and `assert!(result.is_none())`
when the terminal name is occupied. -/
def insertAt (d : DirectoryL) (segs : List String) (name : String) (e : Entry) :
    Option DirectoryL :=
  match segs with
  | [] =>
    match lookupA name d with
    | some _ => none
    | none => some (d ++ [(name, e)])
  | s :: rest =>
    match lookupA s d with
    | none => (insertAt [] rest name e).map (fun sub => d ++ [(s, .directory sub)])
    | some (.directory sub) => (insertAt sub rest name e).map (fun sub2 => updateA s (.directory sub2) d)
    | some (.file _) => none

/-- `Writer::add_with_options` (writer.rs lines 77-102): normalize the
path, pop the filename (`none` models the `expect` panic when there is
none), insert a `FileEntry` carrying the current `file_offset`, then
advance the offset by `size` and queue `content.take(size)`. -/
def add_with_options (w : WriterS) (path : String) (content : List Nat) (size : Nat)
    (executable : Bool) (integrity : Option Integrity) : Option WriterS :=
  let segments := split_path path
  match segments.getLast? with
  | none => none
  | some filename =>
    let fm : FileMetadata := ⟨.offset w.file_offset, size, executable, integrity⟩
    (insertAt w.header segments.dropLast filename (.file fm)).map
      (fun h => ⟨h, w.file_offset + size, w.files ++ [(content, size)]⟩)

/-- `Writer::add` (writer.rs lines 73-75). -/
def addW (w : WriterS) (path : String) (content : List Nat) (size : Nat) : Option WriterS :=
  add_with_options w path content size false none

/-- A sequence of `Writer::add` calls, in order. -/
def addAll (w : WriterS) : List (String × List Nat × Nat) → Option WriterS
  | [] => some w
  | (p, c, s) :: rest =>
    match addW w p c s with
    | none => none
    | some w1 => addAll w1 rest

/-- `Writer::write` (writer.rs lines 110-131) with an in-memory
destination. `enc` stands for the external `serde_json::to_vec` codec.
The four `write_u32_le` words, the header bytes, the zero padding and
then each queued payload are emitted in order. `io::copy(&mut file, dest)`
copies the `Take` until EOF — i.e. `min(size, content length)` bytes —
and its return value is discarded, so a source shorter than its declared
size does NOT make `write` fail; writing to a `Vec`-like destination
cannot fail, hence the model is total. -/
def writeModel (enc : DirectoryL → List Nat) (w : WriterS) : List Nat :=
  let header_bytes := enc w.header
  let header_len := header_bytes.length % U32MOD
  let padding := if header_len % 4 = 0 then 0 else 4 - header_len % 4
  le32 4 ++ le32 ((header_len + padding + 8) % U32MOD) ++
    le32 ((header_len + padding + 4) % U32MOD) ++ le32 header_len ++
    header_bytes ++ List.replicate padding 0 ++
    (w.files.map (fun cs => cs.1.take cs.2)).flatten

/-! ## Archive reader (`src/archive.rs`) -/

/-- Parsed `Archive` state (archive.rs lines 27-31): payload base
(`offset`), header tree, and the backing reader's bytes. -/
structure ArchiveS where
  offset : Nat
  header : DirectoryL
  reader : List Nat

/-- `Archive::new` (archive.rs lines 35-53): seek to 12, read a
little-endian `u32` header size, read exactly that many header bytes,
decode them (`dec` stands for the external `serde_json::from_slice`),
and compute the 4-byte-aligned payload base. `none` models the I/O and
`InvalidData` errors (short reads, JSON failure). The `u32` arithmetic
computing the offset wraps modulo `2^32` before the `as u64` cast. -/
def archiveNew (dec : List Nat → Option DirectoryL) (bytes : List Nat) : Option ArchiveS :=
  if bytes.length < 16 then none
  else
    let header_size := readLE32 (bytes.drop 12)
    if (bytes.drop 16).length < header_size then none
    else
      match dec ((bytes.drop 16).take header_size) with
      | none => none
      | some header =>
        some ⟨(if header_size % 4 = 0 then header_size + 16
               else header_size + 16 + 4 - header_size % 4) % U32MOD,
              header, bytes⟩

/-- Outcome of `Archive::read` (and of `read_owned`/`read_owned_local`,
which run the identical resolution and error mapping on a duplicated
reader, archive.rs lines 86-102 and 105-150). The `File` case carries the
bytes the returned sub-stream yields when read to the end
(`take(size)` from the seek target) together with the entry's metadata.
* `panicked` — `Directory::search_segments` indexed `segments[0]` out of
  bounds (empty normalized path);
* `notFound` — `io::ErrorKind::NotFound`;
* `notAFile` — I/O error with message `not a file`;
* `unsupportedUnpacked` — error `unpacked file is currently not supported`
  from `FileMetadata::offset` (header.rs lines 60-69). -/
inductive ReadResult where
  | panicked
  | notFound
  | notAFile
  | unsupportedUnpacked
  | file (content : List Nat) (meta : FileMetadata)

/-- `Archive::read` (archive.rs lines 86-102): resolve the split path in
the header, then: file entry → check `offset()`, seek the reader to
`self.offset + offset` and return it limited to `size`; other entry →
"not a file"; no entry → NotFound. -/
def archiveRead (a : ArchiveS) (path : String) : ReadResult :=
  match dirSearchSegments a.header (split_path path) with
  | none => .panicked
  | some (some (Entry.file metadata)) =>
    match metadata.pos with
    | .unpacked => .unsupportedUnpacked
    | .offset k => .file ((a.reader.drop (a.offset + k)).take metadata.size) metadata
  | some (some _) => .notAFile
  | some none => .notFound

/-! ## The `File` sub-stream (`src/archive.rs` lines 179-271) -/

/-- `SeekFrom` (std::io). `current` and `fromEnd` carry an `i64`,
modelled as `Int` (theorems that need the `i64` range state it
explicitly). -/
inductive SeekFrom where
  | start (k : Nat)
  | current (k : Int)
  | fromEnd (k : Int)
  deriving DecidableEq, Repr

/-- Errors surfaced by the sub-stream seek machinery:
`invalidInput` is `io::ErrorKind::InvalidInput`; `unpackedErr` is the
`FileMetadata::offset` failure; `cursorErr` is an error from the backing
reader's own seek (seeking before position 0). -/
inductive SeekErr where
  | invalidInput
  | unpackedErr
  | cursorErr
  deriving DecidableEq, Repr

/-- State of a `File` sub-stream (archive.rs lines 181-186) together with
its backing reader, which is modelled as an in-memory cursor:
`offset` is the archive's payload base, `metadata` the file's metadata,
`pos` the backing reader's absolute cursor, and `limit` the `Take` limit
(`content.limit()`). `data` is the backing reader's full byte content. -/
structure FileState where
  offset : Nat
  metadata : FileMetadata
  pos : Nat
  limit : Nat
  data : List Nat
  deriving DecidableEq, Repr

/-- Seek of the backing in-memory cursor (std::io::Cursor semantics via
tokio): `Start` sets the position (past-the-end allowed); `Current` and
`End` fail when the resulting position would be negative. -/
def cursorSeek (len : Nat) (pos : Nat) : SeekFrom → Option Nat
  | .start k => some k
  | .current d => if (pos : Int) + d < 0 then none else some ((pos : Int) + d).toNat
  | .fromEnd d => if (len : Int) + d < 0 then none else some ((len : Int) + d).toNat

/-- One completed sub-stream seek: `File::start_seek` (archive.rs lines
238-257) translating the position and handing it to the backing reader,
followed by `File::poll_complete` (lines 259-270) updating the `Take`
limit from the backing reader's reported absolute position. Returns the
new state and the reported relative position. The guards reproduce the
Rust casts exactly: `-pos as u64` is `negAsU64`, and
`(size - current_relative_pos) as i64` is `u64AsI64 (u64sub ...)`. -/
def fileSeek (f : FileState) (position : SeekFrom) : Except SeekErr (FileState × Nat) :=
  match f.metadata.pos with
  | .unpacked => .error .unpackedErr
  | .offset foff =>
    let current_relative_pos := u64sub f.metadata.size f.limit
    let offset := f.offset + foff
    let translated : Except SeekErr SeekFrom :=
      match position with
      | .start pos => .ok (.start (offset + min f.metadata.size pos))
      | .current pos =>
        if negAsU64 pos > current_relative_pos then .error .invalidInput
        else .ok (.current (min pos (u64AsI64 (u64sub f.metadata.size current_relative_pos))))
      | .fromEnd pos =>
        if 0 < pos then .ok (.start (offset + f.metadata.size))
        else if negAsU64 pos > f.metadata.size then .error .invalidInput
        else .ok (.start (offset + u64sub f.metadata.size (negAsU64 pos)))
    match translated with
    | .error e => .error e
    | .ok tgt =>
      match cursorSeek f.data.length f.pos tgt with
      | none => .error .cursorErr
      | some newAbs =>
        let newRel := u64sub (u64sub newAbs f.offset) foff
        let newLim := u64sub f.metadata.size newRel
        .ok ({ f with pos := newAbs, limit := newLim }, newRel)

/-- A sub-stream read of up to `n` bytes (`File::poll_read` delegating to
`Take::poll_read`, archive.rs lines 227-235): yields at most
`min n limit` bytes, bounded by what the backing reader has left;
advances the cursor and decreases the limit by the bytes yielded. -/
def fileRead (f : FileState) (n : Nat) : FileState × List Nat :=
  let out := (f.data.drop f.pos).take (min n f.limit)
  ({ f with pos := f.pos + out.length, limit := f.limit - out.length }, out)

/-- An operation on a sub-stream: a read of up to `n` bytes or a seek. -/
inductive FOp where
  | doRead (n : Nat)
  | doSeek (s : SeekFrom)

/-- Apply one operation; a failed seek leaves the state unchanged
(`start_seek` errors return before mutating, and a backing-cursor error
leaves the limit untouched). -/
def applyOp (f : FileState) : FOp → FileState
  | .doRead n => (fileRead f n).1
  | .doSeek s =>
    match fileSeek f s with
    | .ok (f', _) => f'
    | .error _ => f

/-- Run a sequence of sub-stream operations. -/
def runOps (f : FileState) : List FOp → FileState
  | [] => f
  | op :: rest => runOps (applyOp f op) rest

/-- The sub-stream invariant: the remaining limit never exceeds the file
size, and (for stored files) the backing cursor sits at
`payload base + offset + p` where `p = size - limit` is the relative
position. -/
def FInv (f : FileState) : Prop :=
  f.limit ≤ f.metadata.size ∧
  (match f.metadata.pos with
   | .offset foff => f.pos = f.offset + foff + (f.metadata.size - f.limit)
   | .unpacked => True)

/-! ## Integrity engine (`src/archive.rs` lines 195-224, `src/writer.rs`
lines 177-205). The SHA-256 implementation is the external `sha2` crate;
it enters the model as a parameter `H : List Nat → List Nat`, with the
incremental `global_state.update(...)`/`finalize()` pipeline represented
as `H` applied to the concatenation of the updated chunks. -/

/-- The `for block_hash in integrity.blocks` loop of
`File::check_integrity`: read up to `block_size` bytes; if the read is
empty or the block hash mismatches, stop with `false`; otherwise
accumulate the total size and the running hash input. Returns the
resulting sub-stream state, the verdict so far, the accumulated size and
the concatenated bytes fed to the whole-file hash. -/
def ciLoop (H : List Nat → List Nat) (block_size : Nat) :
    List (List Nat) → FileState → Nat → List Nat → FileState × Bool × Nat × List Nat
  | [], f, sz, gl => (f, true, sz, gl)
  | bh :: rest, f, sz, gl =>
    let (f', block) := fileRead f block_size
    if block.length = 0 ∨ H block ≠ bh then (f', false, sz, gl)
    else ciLoop H block_size rest f' (sz + block.length) (gl ++ block)

/-- `File::check_integrity` (archive.rs lines 195-224): with no integrity
record, immediately `Ok(true)` with the stream untouched; otherwise run
the block loop, then check the total size against `metadata.size` and
the running hash against the whole-file hash, rewinding (seek to start)
on every exit path. -/
def fileCheckIntegrity (H : List Nat → List Nat) (f : FileState) :
    Except SeekErr (FileState × Bool) :=
  match f.metadata.integrity with
  | none => .ok (f, true)
  | some integrity =>
    match ciLoop H integrity.block_size integrity.blocks f 0 [] with
    | (f', false, _, _) => (fileSeek f' (.start 0)).map (fun x => (x.1, false))
    | (f', true, sz, gl) =>
      if f.metadata.size ≠ sz ∨ H gl ≠ integrity.hash then
        (fileSeek f' (.start 0)).map (fun x => (x.1, false))
      else (fileSeek f' (.start 0)).map (fun x => (x.1, true))

/-- `BLOCK_SIZE` (lib.rs line 35). -/
def BLOCK_SIZE : Nat := 4194304

/-- The hashing loop of `Writer::add_sized_with_integrity` (writer.rs
lines 177-194): repeatedly read up to `BLOCK_SIZE` bytes until a read
returns nothing; per chunk, push the chunk hash and feed the running
hash. Returns the total size read, the block hashes, and the bytes fed
to the whole-file hash. -/
def writerIntegrityLoop (H : List Nat → List Nat) : List Nat → Nat × List (List Nat) × List Nat
  | [] => (0, [], [])
  | x :: tl =>
    let chunk := (x :: tl).take BLOCK_SIZE
    let (sz, bls, gl) := writerIntegrityLoop H ((x :: tl).drop BLOCK_SIZE)
    (chunk.length + sz, H chunk :: bls, chunk ++ gl)
  termination_by c => c.length
  decreasing_by simp [List.length_drop, BLOCK_SIZE]; omega

/-- The `Integrity` record and size computed by
`Writer::add_sized_with_integrity` (writer.rs lines 195-202) from a
source whose remaining bytes are `content`. -/
def computeIntegrity (H : List Nat → List Nat) (content : List Nat) : Integrity × Nat :=
  let (sz, bls, gl) := writerIntegrityLoop H content
  (⟨.SHA256, H gl, BLOCK_SIZE, bls⟩, sz)

/-! ## Helper lemmas -/

theorem le32_length (n : Nat) : (le32 n).length = 4 := rfl

/-- Decoding the four bytes written by `write_u32_le` recovers any value
below `2^32`. -/
theorem readLE32_le32 (n : Nat) (rest : List Nat) (h : n < U32MOD) :
    readLE32 (le32 n ++ rest) = n := by
  show n % 256 + 256 * (n / 256 % 256) + 65536 * (n / 65536 % 256) +
      16777216 * (n / 16777216 % 256) = n
  have e1 : n / 256 / 256 = n / 65536 := by rw [Nat.div_div_eq_div_mul]
  have e2 : n / 65536 / 256 = n / 16777216 := by rw [Nat.div_div_eq_div_mul]
  have h1 := Nat.div_add_mod n 256
  have h2 := Nat.div_add_mod (n / 256) 256
  have h3 := Nat.div_add_mod (n / 65536) 256
  rw [e1] at h2
  rw [e2] at h3
  have h4 : n / 16777216 < 256 := by
    apply Nat.div_lt_of_lt_mul
    have : U32MOD = 16777216 * 256 := by norm_num [U32MOD]
    omega
  have h5 : n / 16777216 % 256 = n / 16777216 := Nat.mod_eq_of_lt h4
  omega

theorem flatten_drop_take (L : List (List Nat)) :
    ∀ (j : Nat) (hj : j < L.length),
      (L.flatten.drop (((L.take j).map List.length).sum)).take (L.get ⟨j, hj⟩).length =
        L.get ⟨j, hj⟩ := by
  induction L with
  | nil => intro j hj; simp at hj
  | cons hd tl ih =>
    intro j hj
    match j with
    | 0 => simp [List.take_left hd tl.flatten]
    | j + 1 =>
      have hj' : j < tl.length := by simpa using hj
      have : ((hd :: tl).flatten.drop ((((hd :: tl).take (j + 1)).map List.length).sum)) =
          tl.flatten.drop (((tl.take j).map List.length).sum) := by
        simp [List.flatten_cons, Nat.add_comm hd.length]
        rw [Nat.add_comm, List.drop_append]
      rw [this]
      simpa using ih j hj'

theorem lookupA_append_of_some {s : String} {d : DirectoryL} {x : Entry}
    (h : lookupA s d = some x) (l2 : DirectoryL) : lookupA s (d ++ l2) = some x := by
  induction d with
  | nil => simp [lookupA] at h
  | cons p tl ih =>
    rw [List.cons_append]
    rw [lookupA] at h ⊢
    split at h
    · rw [if_pos (by assumption)]
      exact h
    · rw [if_neg (by assumption)]
      exact ih h

theorem lookupA_append_of_none {s : String} {d : DirectoryL}
    (h : lookupA s d = none) (l2 : DirectoryL) : lookupA s (d ++ l2) = lookupA s l2 := by
  induction d with
  | nil => simp
  | cons p tl ih =>
    rw [lookupA] at h
    rw [List.cons_append, lookupA]
    split at h
    · exact absurd h (by simp)
    · rw [if_neg (by assumption)]
      exact ih h

theorem lookupA_self (s : String) (e : Entry) (tl : DirectoryL) :
    lookupA s ((s, e) :: tl) = some e := by simp [lookupA]

theorem lookupA_update_ne {s k : String} (hne : s ≠ k) (v : Entry) (d : DirectoryL) :
    lookupA s (updateA k v d) = lookupA s d := by
  induction d with
  | nil => simp [updateA]
  | cons p tl ih =>
    rw [updateA]
    by_cases hk : p.1 = k
    · rw [if_pos hk, lookupA, lookupA, if_neg (by rw [hk]; exact fun h => hne h.symm),
        if_neg (by rw [hk]; exact fun h => hne h.symm)]
    · rw [if_neg hk, lookupA, lookupA]
      split
      · rfl
      · exact ih

theorem lookupA_update_eq {k : String} {d : DirectoryL} {x : Entry}
    (h : lookupA k d = some x) (v : Entry) : lookupA k (updateA k v d) = some v := by
  induction d with
  | nil => simp [lookupA] at h
  | cons p tl ih =>
    rw [lookupA] at h
    rw [updateA]
    split at h
    · rw [if_pos (by assumption), lookupA, if_pos (by assumption)]
    · rw [if_neg (by assumption), lookupA, if_neg (by assumption)]
      exact ih h

/-- `dSearch` is lookup followed by `eSearch` on the remaining segments
(the `files.get(..).and_then(..)` composition of the Rust source). -/
theorem dSearch_eq (d : DirectoryL) (s : String) (rest : List String) :
    dSearch d s rest = (lookupA s d).bind (fun e => eSearch e rest) := by
  induction d with
  | nil => simp [dSearch, lookupA]
  | cons p tl ih =>
    rw [dSearch, lookupA]
    by_cases hp : p.1 = s
    · simp [hp]
    · simp only [if_neg hp]
      exact ih

theorem eSearch_cons (d : DirectoryL) (s : String) (rest : List String) :
    eSearch (.directory d) (s :: rest) = (lookupA s d).bind (fun e => eSearch e rest) := by
  rw [eSearch, dSearch_eq]

/-- A path inserted by `insertAt` is subsequently found, with the
inserted entry as its result. -/
theorem insertAt_found {segs : List String} :
    ∀ {d d' : DirectoryL} {name : String} {e : Entry},
      insertAt d segs name e = some d' →
      eSearch (.directory d') (segs ++ [name]) = some e := by
  induction segs with
  | nil =>
    intro d d' name e h
    rcases hl : lookupA name d with _ | x
    · rw [insertAt, hl] at h
      simp only [Option.some.injEq] at h
      subst h
      rw [List.nil_append, eSearch_cons, lookupA_append_of_none hl, lookupA_self]
      simp [eSearch]
    · rw [insertAt, hl] at h
      simp at h
  | cons s' rest' ih =>
    intro d d' name e h
    rcases hl : lookupA s' d with _ | x
    · rw [insertAt, hl] at h
      simp only [Option.map_eq_some'] at h
      obtain ⟨sub, hsub, hd'⟩ := h
      subst hd'
      rw [List.cons_append, eSearch_cons, lookupA_append_of_none hl, lookupA_self]
      simp only [Option.some_bind]
      exact ih hsub
    · cases x with
      | file m' => rw [insertAt, hl] at h; simp at h
      | directory sub =>
        rw [insertAt, hl] at h
        simp only [Option.map_eq_some'] at h
        obtain ⟨sub2, hsub2, hd'⟩ := h
        subst hd'
        rw [List.cons_append, eSearch_cons, lookupA_update_eq hl]
        simp only [Option.some_bind]
        exact ih hsub2

/-- `insertAt` never disturbs an existing path that resolves to a file:
it only appends fresh bindings or descends into existing directories. -/
theorem insertAt_preserves_file {segs : List String} :
    ∀ {d d' : DirectoryL} {name : String} {e : Entry},
      insertAt d segs name e = some d' →
      ∀ (q : List String) (m : FileMetadata),
        eSearch (.directory d) q = some (.file m) →
        eSearch (.directory d') q = some (.file m) := by
  induction segs with
  | nil =>
    intro d d' name e h q m hq
    rcases hl : lookupA name d with _ | x
    · rw [insertAt, hl] at h
      simp only [Option.some.injEq] at h
      subst h
      cases q with
      | nil => simp [eSearch] at hq
      | cons s rest =>
        rw [eSearch_cons] at hq ⊢
        rcases hls : lookupA s d with _ | y
        · rw [hls] at hq; simp at hq
        · rw [hls] at hq
          rw [lookupA_append_of_some hls]
          exact hq
    · rw [insertAt, hl] at h
      simp at h
  | cons s' rest' ih =>
    intro d d' name e h q m hq
    rcases hl : lookupA s' d with _ | x
    · rw [insertAt, hl] at h
      simp only [Option.map_eq_some'] at h
      obtain ⟨sub, hsub, hd'⟩ := h
      subst hd'
      cases q with
      | nil => simp [eSearch] at hq
      | cons s rest =>
        rw [eSearch_cons] at hq ⊢
        rcases hls : lookupA s d with _ | y
        · rw [hls] at hq; simp at hq
        · rw [hls] at hq
          rw [lookupA_append_of_some hls]
          exact hq
    · cases x with
      | file m' => rw [insertAt, hl] at h; simp at h
      | directory sub =>
        rw [insertAt, hl] at h
        simp only [Option.map_eq_some'] at h
        obtain ⟨sub2, hsub2, hd'⟩ := h
        subst hd'
        cases q with
        | nil => simp [eSearch] at hq
        | cons s rest =>
          rw [eSearch_cons] at hq ⊢
          by_cases hss : s = s'
          · subst hss
            rw [hl] at hq
            rw [lookupA_update_eq hl]
            simp only [Option.some_bind] at hq ⊢
            exact ih hsub2 rest m hq
          · rw [lookupA_update_ne hss]
            exact hq

/-- Specification of a single successful `Writer::add`: the path has a
filename, the running offset advances by `size`, the payload is queued,
the new path resolves to the inserted `FileEntry`, and previously
resolvable files are untouched. -/
theorem addW_spec {w w1 : WriterS} {p : String} {c : List Nat} {s : Nat}
    (h : addW w p c s = some w1) :
    split_path p ≠ [] ∧
    w1.file_offset = w.file_offset + s ∧
    w1.files = w.files ++ [(c, s)] ∧
    eSearch (.directory w1.header) (split_path p) =
      some (.file ⟨.offset w.file_offset, s, false, none⟩) ∧
    ∀ (q : List String) (m : FileMetadata),
      eSearch (.directory w.header) q = some (.file m) →
      eSearch (.directory w1.header) q = some (.file m) := by
  rw [addW, add_with_options] at h
  rcases hlast : (split_path p).getLast? with _ | filename
  · rw [hlast] at h; simp at h
  · rw [hlast] at h
    simp only [Option.map_eq_some'] at h
    obtain ⟨hh, hins, hw1⟩ := h
    subst hw1
    have hne : split_path p ≠ [] := by
      intro hnil; rw [hnil] at hlast; simp at hlast
    have hsplit : (split_path p).dropLast ++ [filename] = split_path p :=
      List.dropLast_append_getLast? filename (Option.mem_def.mpr hlast)
    refine ⟨hne, rfl, rfl, ?_, ?_⟩
    · rw [← hsplit]
      exact insertAt_found hins
    · intro q m hq
      exact insertAt_preserves_file hins q m hq

/-- Total declared size of a list of `add` requests. -/
def sumSizes (l : List (String × List Nat × Nat)) : Nat := (l.map (fun x => x.2.2)).sum

/-- Specification of a successful sequence of `Writer::add` calls:
offset accumulation, payload queue, preservation of earlier files, and
resolution of the `j`-th added path to a `FileEntry` whose offset is the
sum of the previously declared sizes. -/
theorem addAll_spec (ps : List (String × List Nat × Nat)) :
    ∀ (w w' : WriterS), addAll w ps = some w' →
      w'.file_offset = w.file_offset + sumSizes ps ∧
      w'.files = w.files ++ ps.map (fun x => (x.2.1, x.2.2)) ∧
      (∀ (q : List String) (m : FileMetadata),
        eSearch (.directory w.header) q = some (.file m) →
        eSearch (.directory w'.header) q = some (.file m)) ∧
      ∀ (j : Nat) (hj : j < ps.length),
        split_path (ps.get ⟨j, hj⟩).1 ≠ [] ∧
        eSearch (.directory w'.header) (split_path (ps.get ⟨j, hj⟩).1) =
          some (.file ⟨.offset (w.file_offset + sumSizes (ps.take j)),
            (ps.get ⟨j, hj⟩).2.2, false, none⟩) := by
  induction ps with
  | nil =>
    intro w w' h
    rw [addAll] at h
    simp only [Option.some.injEq] at h
    subst h
    refine ⟨by simp [sumSizes], by simp, fun q m hq => hq, fun j hj => by simp at hj⟩
  | cons x rest ih =>
    intro w w' h
    rw [addAll] at h
    rcases hadd : addW w x.1 x.2.1 x.2.2 with _ | w1
    · rw [hadd] at h; simp at h
    · rw [hadd] at h
      obtain ⟨hne1, hoff1, hfiles1, hfound1, hpres1⟩ := addW_spec hadd
      obtain ⟨hoff2, hfiles2, hpres2, hidx2⟩ := ih w1 w' h
      refine ⟨?_, ?_, ?_, ?_⟩
      · rw [hoff2, hoff1]
        simp [sumSizes]
        omega
      · rw [hfiles2, hfiles1]
        simp
      · intro q m hq
        exact hpres2 q m (hpres1 q m hq)
      · intro j hj
        match j with
        | 0 =>
          refine ⟨hne1, ?_⟩
          have := hpres2 _ _ hfound1
          simpa [sumSizes] using this
        | j + 1 =>
          have hj' : j < rest.length := by simpa using hj
          obtain ⟨hne, hsearch⟩ := hidx2 j hj'
          refine ⟨hne, ?_⟩
          show eSearch (.directory w'.header) (split_path (rest.get ⟨j, hj'⟩).1) =
            some (.file ⟨.offset (w.file_offset + sumSizes ((x :: rest).take (j + 1))),
              (rest.get ⟨j, hj'⟩).2.2, false, none⟩)
          rw [hsearch, hoff1]
          have harith : w.file_offset + x.2.2 + sumSizes (rest.take j) =
              w.file_offset + sumSizes ((x :: rest).take (j + 1)) := by
            simp [sumSizes]
            omega
          rw [harith]

/-- `addAll` over an append runs the two halves in sequence. -/
theorem addAll_append (l1 l2 : List (String × List Nat × Nat)) :
    ∀ (w w' : WriterS), addAll w (l1 ++ l2) = some w' →
      ∃ w1, addAll w l1 = some w1 ∧ addAll w1 l2 = some w' := by
  induction l1 with
  | nil => intro w w' h; exact ⟨w, rfl, h⟩
  | cons x rest ih =>
    intro w w' h
    rw [List.cons_append, addAll] at h
    rcases hadd : addW w x.1 x.2.1 x.2.2 with _ | w1
    · rw [hadd] at h; simp at h
    · rw [hadd] at h
      obtain ⟨wmid, h1, h2⟩ := ih w1 w' h
      exact ⟨wmid, by rw [addAll, hadd]; exact h1, h2⟩

/-! ## Concrete instances used by closed theorems and witnesses -/

/-- A `File` sub-stream of size 10 at relative position 0 over ten bytes. -/
def fC2 : FileState := ⟨0, ⟨.offset 0, 10, false, none⟩, 0, 10, List.replicate 10 7⟩

/-- The writer state after `add("a", content, 5)` with a 3-byte content. -/
def wC3 : WriterS := ⟨[("a", .file ⟨.offset 0, 5, false, none⟩)], 5, [([7, 7, 7], 5)]⟩

/-- A degenerate stand-in for `serde_json::to_vec` producing an empty
header (only the envelope arithmetic matters for the theorems using it). -/
def encEmpty : DirectoryL → List Nat := fun _ => []

/-- A parsed archive with payload base 16 and one 1-byte file `a`. -/
def aC5 : ArchiveS := ⟨16, [("a", .file ⟨.offset 0, 1, false, none⟩)], List.replicate 16 0 ++ [9]⟩

/-- A parsed archive with a stored file `x`, a directory `d` and an
unpacked file `u`. -/
def aC7 : ArchiveS :=
  ⟨16, [("x", .file ⟨.offset 0, 2, false, none⟩), ("d", .directory []),
        ("u", .file ⟨.unpacked, 1, false, none⟩)], List.replicate 16 0 ++ [5, 6]⟩

/-- A concrete stand-in for the external SHA-256 function (the integrity
code treats the hash function as a black box). -/
def H100 : List Nat → List Nat := fun l => [l.length + 100]

/-- A sub-stream with no integrity record. -/
def fC10 : FileState := ⟨0, ⟨.offset 0, 3, false, none⟩, 0, 3, [1, 2, 3]⟩

/-! ## Claim theorems -/

/-- C2 (counterpart evaluation): for the `File` sub-stream `fC2` of size
10 at relative position 0, a `SeekFrom::Current(k)` seek with `k = 3`
(and `k = 1`) returns `InvalidInput` instead of clamping forward to
`min(p + k, 10)`: in `start_seek` the guard `-pos as u64 >
current_relative_pos` wraps `-k` to `2^64 - k`, which exceeds any
in-bounds relative position, so every strictly positive `Current` seek
is rejected. Only `k = 0` succeeds. This contradicts the claim that
From-Current(k), k ≥ 0 always succeeds with position `min(p + k, S)`. -/
theorem c2_forward_current_seek_rejected :
    fileSeek fC2 (SeekFrom.current 3) = .error .invalidInput ∧
    fileSeek fC2 (SeekFrom.current 1) = .error .invalidInput ∧
    fileSeek fC2 (SeekFrom.current 0) = .ok (fC2, 0) :=
  ⟨rfl, rfl, rfl⟩

/-- C3 (counterpart evaluation): `Writer::write` does not fail when a
payload source yields fewer bytes than its declared size. Queueing a
3-byte content with declared size 5 and writing produces a complete,
error-free output whose payload section holds only the 3 available
bytes (total length `16 + 3`, not `16 + 5`): `write` discards the byte
count returned by `io::copy`, which copies until EOF of the `Take` and
never compares against the declared size. -/
theorem c3_short_source_write_succeeds :
    addW emptyWriter "a" [7, 7, 7] 5 = some wC3 ∧
    writeModel encEmpty wC3 =
      [4, 0, 0, 0, 8, 0, 0, 0, 4, 0, 0, 0, 0, 0, 0, 0, 7, 7, 7] ∧
    (writeModel encEmpty wC3).length = 16 + 3 :=
  ⟨rfl, rfl, rfl⟩

/-- C5 (counterpart evaluation): for every path whose normalized segment
list is empty (`""`, `"/"`, `"."`, `".."`), `Archive::read` does not
return `NotFound`: `Directory::search_segments` indexes `segments[0]`
on the empty slice and the Rust code panics (modelled by
`ReadResult.panicked`). -/
theorem c5_empty_path_panics :
    archiveRead aC5 "" = .panicked ∧
    archiveRead aC5 "/" = .panicked ∧
    archiveRead aC5 "." = .panicked ∧
    archiveRead aC5 ".." = .panicked ∧
    archiveRead aC5 "a" = .file [9] ⟨.offset 0, 1, false, none⟩ :=
  ⟨rfl, rfl, rfl, rfl, rfl⟩

/-- The spec-side description of `Archive::read` for a path that
addresses the tree (§4.6 steps 1-3): resolve the normalized path with
the total entry search; absent → NotFound, directory → "not a file",
unpacked file → unsupported, stored file → the sub-stream of `size`
bytes at `payload base + offset`. -/
def readSpec (a : ArchiveS) (p : String) : ReadResult :=
  match eSearch (.directory a.header) (split_path p) with
  | none => .notFound
  | some (.directory _) => .notAFile
  | some (.file m) =>
    match m.pos with
    | .unpacked => .unsupportedUnpacked
    | .offset k => .file ((a.reader.drop (a.offset + k)).take m.size) m

/-- C7: for every archive and every path whose normalized segment list
is non-empty, `Archive::read` (and `read_owned`/`read_owned_local`,
which share the resolution and error mapping verbatim) returns exactly
what the spec's case analysis dictates: `NotFound` when the path
resolves to no entry, the "not a file" error on a directory, the
"unpacked file is currently not supported" error on an unpacked file,
and otherwise the sub-stream of `size` bytes positioned at
`payload base + offset`. In particular no panic is reachable. -/
theorem c7_read_error_mapping (a : ArchiveS) (p : String) (h : split_path p ≠ []) :
    archiveRead a p = readSpec a p := by
  obtain ⟨s, rest, hsp⟩ := List.exists_cons_of_ne_nil h
  unfold archiveRead readSpec
  rw [hsp]
  simp only [dirSearchSegments, eSearch]
  rcases dSearch a.header s rest with _ | e
  · rfl
  · cases e with
    | file m =>
      rcases m with ⟨pos, size, executable, integrity⟩
      cases pos <;> rfl
    | directory dd => rfl

/-- C7 witness: the mapping at the concrete archive `aC7` and path `x`. -/
theorem c7_read_error_mapping_witness : archiveRead aC7 "x" = readSpec aC7 "x" :=
  c7_read_error_mapping aC7 "x" (by decide)

/-- C8: parsing a file record's position field is total (an `Except`
value, never a panic) and errors in exactly the claimed cases: both
`offset` and `unpacked: true` present → the "got both 'unpacked' and
'offset' field" error; an offset string that `str::parse::<u64>`
rejects → the `invalid value … expected valid u64 string` error;
`unpacked: false` with no offset → invalid; otherwise a parseable
offset string yields `Offset(u64)` and `unpacked: true` yields
`Unpacked`. -/
theorem c8_fileposition_deserialize (u : Option Bool) (o : Option String) :
    (∀ s, o = some s → u = some true →
      filePositionDeser u o = .error .gotBothUnpackedAndOffset) ∧
    (∀ s n, o = some s → u ≠ some true → parseU64 s = some n →
      filePositionDeser u o = .ok (.offset n)) ∧
    (∀ s, o = some s → u ≠ some true → parseU64 s = none →
      filePositionDeser u o = .error (.invalidValueStr s "valid u64 string")) ∧
    (o = none → u = some true → filePositionDeser u o = .ok .unpacked) ∧
    (o = none → u = some false →
      filePositionDeser u o = .error (.invalidValueBool false "true")) := by
  refine ⟨?_, ?_, ?_, ?_, ?_⟩
  · rintro s rfl rfl
    simp [filePositionDeser]
  · rintro s n rfl hu hp
    simp [filePositionDeser, hu, hp]
  · rintro s rfl hu hp
    simp [filePositionDeser, hu, hp]
  · rintro rfl rfl
    rfl
  · rintro rfl rfl
    rfl

/-- C8 witness: each clause at a concrete input. -/
theorem c8_fileposition_deserialize_witness :
    filePositionDeser (some true) (some "7") = .error .gotBothUnpackedAndOffset ∧
    filePositionDeser none (some "123") = .ok (.offset 123) ∧
    filePositionDeser (some false) (some "12x") =
      .error (.invalidValueStr "12x" "valid u64 string") ∧
    filePositionDeser (some true) none = .ok .unpacked ∧
    filePositionDeser (some false) none = .error (.invalidValueBool false "true") :=
  ⟨(c8_fileposition_deserialize (some true) (some "7")).1 "7" rfl rfl,
   (c8_fileposition_deserialize none (some "123")).2.1 "123" 123 rfl (by decide) rfl,
   (c8_fileposition_deserialize (some false) (some "12x")).2.2.1 "12x" rfl (by decide) rfl,
   (c8_fileposition_deserialize (some true) none).2.2.2.1 rfl rfl,
   (c8_fileposition_deserialize (some false) none).2.2.2.2 rfl rfl⟩

/-- C10: a `File` sub-stream whose metadata has no integrity record
passes `check_integrity` immediately: the result is `Ok(true)` and the
state — cursor position and remaining limit — is returned unchanged, no
read or seek being performed. -/
theorem c10_no_integrity_trivially_ok (H : List Nat → List Nat) (f : FileState)
    (h : f.metadata.integrity = none) : fileCheckIntegrity H f = .ok (f, true) := by
  simp [fileCheckIntegrity, h]

/-- C10 witness: the concrete integrity-free sub-stream `fC10`. -/
theorem c10_no_integrity_trivially_ok_witness :
    fileCheckIntegrity H100 fC10 = .ok (fC10, true) :=
  c10_no_integrity_trivially_ok H100 fC10 rfl

/-- C9: writer offset assignment. For a successful sequence of adds
`f_1, …, f_k` starting from the empty writer, (a) the path of `f_j`
resolves in the final header to a `FileEntry` whose recorded offset is
the sum of the sizes of `f_1 … f_(j-1)` (the first file gets offset 0),
and (b) after each prefix of adds the writer's next offset equals the
cumulative size of that prefix — i.e. each add increased it by exactly
that file's size. -/
theorem c9_offset_assignment (fs : List (String × List Nat × Nat)) (w : WriterS)
    (h : addAll emptyWriter fs = some w) :
    (∀ (j : Nat) (hj : j < fs.length),
      eSearch (.directory w.header) (split_path (fs.get ⟨j, hj⟩).1) =
        some (.file ⟨.offset (sumSizes (fs.take j)), (fs.get ⟨j, hj⟩).2.2,
          false, none⟩)) ∧
    (∀ j, j ≤ fs.length → ∃ wj, addAll emptyWriter (fs.take j) = some wj ∧
      wj.file_offset = sumSizes (fs.take j)) := by
  constructor
  · intro j hj
    have hidx := ((addAll_spec fs emptyWriter w h).2.2.2 j hj).2
    simpa [emptyWriter] using hidx
  · intro j hj
    obtain ⟨wj, h1, h2⟩ := addAll_append (fs.take j) (fs.drop j) emptyWriter w
      (by rw [List.take_append_drop]; exact h)
    refine ⟨wj, h1, ?_⟩
    have hoff := (addAll_spec (fs.take j) emptyWriter wj h1).1
    simpa [emptyWriter] using hoff

/-- The concrete add sequence used by the C9 witness. -/
def fsC9 : List (String × List Nat × Nat) := [("a", [1, 2], 2), ("b", [3], 1)]

/-- The writer resulting from `fsC9`. -/
def wC9 : WriterS :=
  ⟨[("a", .file ⟨.offset 0, 2, false, none⟩), ("b", .file ⟨.offset 2, 1, false, none⟩)],
   3, [([1, 2], 2), ([3], 1)]⟩

/-- C9 witness: both files of the concrete sequence carry the cumulative
offsets 0 and 2. -/
theorem c9_offset_assignment_witness :
    eSearch (.directory wC9.header) (split_path "a") =
      some (.file ⟨.offset 0, 2, false, none⟩) ∧
    eSearch (.directory wC9.header) (split_path "b") =
      some (.file ⟨.offset 2, 1, false, none⟩) :=
  ⟨(c9_offset_assignment fsC9 wC9 rfl).1 0 (by decide),
   (c9_offset_assignment fsC9 wC9 rfl).1 1 (by decide)⟩

/-- Dropping `4 + k` bytes past a 4-byte `le32` word. -/
theorem drop_le32_append (x : Nat) (l : List Nat) (n k : Nat) (h : n = 4 + k) :
    (le32 x ++ l).drop n = l.drop k := by
  subst h
  show (le32 x ++ l).drop ((le32 x).length + k) = l.drop k
  exact List.drop_append k

/-- `Archive::read` on a path that resolves to a stored file returns the
sub-stream of `size` bytes at `payload base + offset`. -/
theorem archiveRead_of_file {a : ArchiveS} {p s : String} {rest : List String}
    (hsp : split_path p = s :: rest) {m : FileMetadata} {k : Nat}
    (hd : dSearch a.header s rest = some (.file m)) (hk : m.pos = .offset k) :
    archiveRead a p = .file ((a.reader.drop (a.offset + k)).take m.size) m := by
  unfold archiveRead
  rw [hsp]
  simp only [dirSearchSegments]
  rw [hd]
  show (match m.pos with
    | .unpacked => ReadResult.unsupportedUnpacked
    | .offset k => ReadResult.file ((a.reader.drop (a.offset + k)).take m.size) m) = _
  rw [hk]

/-- C1: archive round-trip. For every list of (path, bytes) pairs that a
fresh writer accepts (`addAll` succeeding encodes the claim's
precondition: distinct, non-empty normalized paths forming a valid
tree), each file being added with its exact byte length, writing with
any header codec (`enc`/`dec` standing for serde_json, correct at the
written header and producing fewer than `2^31` header bytes) yields a
buffer such that: the little-endian word at offset 12 is the header
byte length `H`; `P = (4 - H mod 4) mod 4` is in `{0,1,2,3}`;
`Archive::new` accepts the buffer with payload base `16 + H + P`; and
`read(p_i)` returns a sub-stream yielding exactly the bytes `b_i`. -/
theorem c1_archive_round_trip (enc : DirectoryL → List Nat)
    (dec : List Nat → Option DirectoryL)
    (ps : List (String × List Nat)) (w : WriterS)
    (hadd : addAll emptyWriter (ps.map (fun pb => (pb.1, pb.2, pb.2.length))) = some w)
    (hdec : dec (enc w.header) = some w.header)
    (hlen : (enc w.header).length < 2147483648) :
    readLE32 ((writeModel enc w).drop 12) = (enc w.header).length ∧
    (4 - (enc w.header).length % 4) % 4 < 4 ∧
    archiveNew dec (writeModel enc w) =
      some ⟨16 + (enc w.header).length + (4 - (enc w.header).length % 4) % 4,
            w.header, writeModel enc w⟩ ∧
    ∀ (j : Nat) (hj : j < ps.length),
      archiveRead ⟨16 + (enc w.header).length + (4 - (enc w.header).length % 4) % 4,
                   w.header, writeModel enc w⟩ (ps.get ⟨j, hj⟩).1 =
        .file (ps.get ⟨j, hj⟩).2
          ⟨.offset (((ps.take j).map (fun x => x.2.length)).sum),
           (ps.get ⟨j, hj⟩).2.length, false, none⟩ := by
  have hU32 : U32MOD = 4294967296 := rfl
  set hb := enc w.header with hhb
  set H := hb.length with hH
  set P := (4 - H % 4) % 4 with hP
  set payload := (w.files.map (fun cs => cs.1.take cs.2)).flatten with hpayload
  have hH32 : H % U32MOD = H := Nat.mod_eq_of_lt (by omega)
  have hpadval : (if H % 4 = 0 then 0 else 4 - H % 4) = P := by
    rw [hP]; split <;> omega
  have hbytes : writeModel enc w =
      le32 4 ++ (le32 ((H + P + 8) % U32MOD) ++ (le32 ((H + P + 4) % U32MOD) ++
        (le32 H ++ (hb ++ (List.replicate P 0 ++ payload))))) := by
    simp only [writeModel, ← hhb, ← hpayload, hH32, hpadval, List.append_assoc]
  have hdrop12 : (writeModel enc w).drop 12 =
      le32 H ++ (hb ++ (List.replicate P 0 ++ payload)) := by
    rw [hbytes]
    rw [drop_le32_append _ _ 12 8 rfl, drop_le32_append _ _ 8 4 rfl,
      drop_le32_append _ _ 4 0 rfl, List.drop_zero]
  have hword12 : readLE32 ((writeModel enc w).drop 12) = H := by
    rw [hdrop12]
    exact readLE32_le32 H _ (by omega)
  have hdrop16 : (writeModel enc w).drop 16 = hb ++ (List.replicate P 0 ++ payload) := by
    rw [hbytes]
    rw [drop_le32_append _ _ 16 12 rfl, drop_le32_append _ _ 12 8 rfl,
      drop_le32_append _ _ 8 4 rfl, drop_le32_append _ _ 4 0 rfl, List.drop_zero]
  have hlenbytes : (writeModel enc w).length = 16 + H + P + payload.length := by
    rw [hbytes]
    simp [le32]
    omega
  have hnew : archiveNew dec (writeModel enc w) =
      some ⟨16 + H + P, w.header, writeModel enc w⟩ := by
    have htake : (hb ++ (List.replicate P 0 ++ payload)).take H = hb := by
      rw [hH]
      exact List.take_left hb _
    have hoffv : (if H % 4 = 0 then H + 16 else H + 16 + 4 - H % 4) % U32MOD =
        16 + H + P := by
      rw [hP, hU32]; split <;> omega
    rw [archiveNew, if_neg (by omega)]
    simp only [hword12]
    rw [if_neg (by rw [List.length_drop]; omega)]
    rw [hdrop16, htake, hdec]
    show some (ArchiveS.mk ((if H % 4 = 0 then H + 16 else H + 16 + 4 - H % 4) % U32MOD)
        w.header (writeModel enc w)) = _
    rw [hoffv]
  refine ⟨hword12, by omega, hnew, ?_⟩
  intro j hj
  obtain ⟨hoffw, hfiles, _, hidx⟩ :=
    addAll_spec (ps.map (fun pb => (pb.1, pb.2, pb.2.length))) emptyWriter w hadd
  have hj' : j < (ps.map (fun pb => (pb.1, pb.2, pb.2.length))).length := by
    simpa using hj
  obtain ⟨hne, hsearch⟩ := hidx j hj'
  have hget : (ps.map (fun pb => (pb.1, pb.2, pb.2.length))).get ⟨j, hj'⟩ =
      ((ps.get ⟨j, hj⟩).1, (ps.get ⟨j, hj⟩).2, (ps.get ⟨j, hj⟩).2.length) := by
    simp
  have hsum : sumSizes ((ps.map (fun pb => (pb.1, pb.2, pb.2.length))).take j) =
      ((ps.take j).map (fun x => x.2.length)).sum := by
    rw [← List.map_take, sumSizes, List.map_map]
    rfl
  rw [hget] at hne hsearch
  simp only [emptyWriter, Nat.zero_add, hsum] at hsearch
  obtain ⟨s, rest, hsp⟩ := List.exists_cons_of_ne_nil hne
  rw [hsp] at hsearch
  simp only [eSearch] at hsearch
  have hpayloadL : w.files.map (fun cs => cs.1.take cs.2) = ps.map (fun pb => pb.2) := by
    rw [hfiles]
    simp only [emptyWriter, List.nil_append, List.map_map]
    apply List.map_congr_left
    intro pb _
    simp [List.take_length]
  have hcontent :
      ((writeModel enc w).drop
          (16 + H + P + ((ps.take j).map (fun x => x.2.length)).sum)).take
        (ps.get ⟨j, hj⟩).2.length = (ps.get ⟨j, hj⟩).2 := by
    have hassoc : writeModel enc w =
        (le32 4 ++ le32 ((H + P + 8) % U32MOD) ++ le32 ((H + P + 4) % U32MOD) ++
          le32 H ++ hb ++ List.replicate P 0) ++ payload := by
      rw [hbytes]; simp [List.append_assoc]
    have hplen : (le32 4 ++ le32 ((H + P + 8) % U32MOD) ++ le32 ((H + P + 4) % U32MOD) ++
        le32 H ++ hb ++ List.replicate P 0).length = 16 + H + P := by
      simp [le32]
      omega
    rw [hassoc,
      show 16 + H + P + ((ps.take j).map (fun x => x.2.length)).sum =
        (le32 4 ++ le32 ((H + P + 8) % U32MOD) ++ le32 ((H + P + 4) % U32MOD) ++
          le32 H ++ hb ++ List.replicate P 0).length +
          ((ps.take j).map (fun x => x.2.length)).sum by rw [hplen],
      List.drop_append]
    have hflat := flatten_drop_take (ps.map (fun pb => pb.2)) j (by simpa using hj)
    have hsum2 : (((ps.map (fun pb => pb.2)).take j).map List.length).sum =
        ((ps.take j).map (fun x => x.2.length)).sum := by
      rw [← List.map_take, List.map_map]
      rfl
    have hget2 : (ps.map (fun pb => pb.2)).get ⟨j, by simpa using hj⟩ =
        (ps.get ⟨j, hj⟩).2 := by simp
    rw [hsum2, hget2] at hflat
    rw [hpayload, hpayloadL]
    exact hflat
  rw [archiveRead_of_file hsp hsearch rfl]
  show ReadResult.file
      (((writeModel enc w).drop
          (16 + H + P + ((ps.take j).map (fun x => x.2.length)).sum)).take
        (ps.get ⟨j, hj⟩).2.length)
      ⟨.offset (((ps.take j).map (fun x => x.2.length)).sum),
       (ps.get ⟨j, hj⟩).2.length, false, none⟩ = _
  rw [hcontent]

/-- The concrete (path, bytes) list of the C1 witness. -/
def psC1 : List (String × List Nat) := [("a", [7]), ("b/c", [8, 9])]

/-- The writer resulting from adding `psC1` to a fresh writer. -/
def wC1 : WriterS :=
  ⟨[("a", .file ⟨.offset 0, 1, false, none⟩),
    ("b", .directory [("c", .file ⟨.offset 1, 2, false, none⟩)])],
   3, [([7], 1), ([8, 9], 2)]⟩

/-- Concrete header codec for the C1 witness (an encoder may produce any
byte string; the decoder recovers `wC1`'s header from it). -/
def decC1 : List Nat → Option DirectoryL := fun _ => some wC1.header

/-- C1 witness: the two-file round trip through concrete writer, buffer
and archive, with payload base `16 = 16 + H + P` for the empty header
encoding. -/
theorem c1_archive_round_trip_witness :
    readLE32 ((writeModel encEmpty wC1).drop 12) = 0 ∧
    archiveNew decC1 (writeModel encEmpty wC1) =
      some ⟨16, wC1.header, writeModel encEmpty wC1⟩ ∧
    archiveRead ⟨16, wC1.header, writeModel encEmpty wC1⟩ "a" =
      .file [7] ⟨.offset 0, 1, false, none⟩ ∧
    archiveRead ⟨16, wC1.header, writeModel encEmpty wC1⟩ "b/c" =
      .file [8, 9] ⟨.offset 1, 2, false, none⟩ :=
  ⟨(c1_archive_round_trip encEmpty decC1 psC1 wC1 rfl rfl (by decide)).1,
   (c1_archive_round_trip encEmpty decC1 psC1 wC1 rfl rfl (by decide)).2.2.1,
   (c1_archive_round_trip encEmpty decC1 psC1 wC1 rfl rfl (by decide)).2.2.2 0 (by decide),
   (c1_archive_round_trip encEmpty decC1 psC1 wC1 rfl rfl (by decide)).2.2.2 1 (by decide)⟩

/-- Size-0 sub-stream whose integrity record has the correct whole-file
hash (`H100 [] = [100]`) and an empty block list. -/
def fC4zero : FileState :=
  ⟨0, ⟨.offset 0, 0, false, some ⟨.SHA256, [100], BLOCK_SIZE, []⟩⟩, 0, 0, []⟩

/-- Size-0 sub-stream whose integrity record has the correct whole-file
hash and exactly one block hash equal to the hash of the empty string. -/
def fC4one : FileState :=
  ⟨0, ⟨.offset 0, 0, false, some ⟨.SHA256, [100], BLOCK_SIZE, [[100]]⟩⟩, 0, 0, []⟩

/-- C4 counterexample: on a size-0 file whose integrity record carries
one block hash equal to the hash of the empty string, `check_integrity`
returns `Ok(false)` — the first block read returns 0 bytes and the
`read_size == 0` test fires before any hash comparison — and the
writer's integrity computation for an empty source emits zero (not one)
block hashes. This refutes both the "returns true … when it contains
exactly one block hash" part and the "emits one block hash" part of the
claim. -/
theorem c4_claim_counterexample :
    fileCheckIntegrity H100 fC4one = .ok (fC4one, false) ∧
    ¬ fileCheckIntegrity H100 fC4one = .ok (fC4one, true) ∧
    (computeIntegrity H100 []).1.blocks = [] ∧
    ¬ (computeIntegrity H100 []).1.blocks.length = 1 := by
  have hloop : (computeIntegrity H100 []).1.blocks = [] := by
    simp [computeIntegrity, writerIntegrityLoop]
  refine ⟨rfl, fun h => ?_, hloop, by rw [hloop]; simp⟩
  have h2 : (Except.ok (fC4one, false) : Except SeekErr (FileState × Bool)) =
      .ok (fC4one, true) := h
  simp at h2

/-- C4 (amended): for every size-0 `File` sub-stream whose integrity
record carries the correct whole-file hash (the hash of the empty
string), `check_integrity` returns true when the record's block list is
empty but false when it contains one block hash (the zero-byte block
read trips the `read_size == 0` test); and the writer's integrity
computation for an empty source emits an empty block-hash list. -/
theorem c4_empty_file_integrity (H : List Nat → List Nat) (f : FileState)
    (foff bsz : Nat) (hpos : f.metadata.pos = .offset foff)
    (hsz : f.metadata.size = 0) (hlim : f.limit = 0) :
    (f.metadata.integrity = some ⟨.SHA256, H [], bsz, []⟩ →
      fileCheckIntegrity H f = .ok ({ f with pos := f.offset + foff, limit := 0 }, true)) ∧
    (∀ bh, f.metadata.integrity = some ⟨.SHA256, H [], bsz, [bh]⟩ →
      fileCheckIntegrity H f = .ok ({ f with pos := f.offset + foff, limit := 0 }, false)) ∧
    (computeIntegrity H []).1.blocks = [] := by
  have hrewind : ∀ g : FileState, g.metadata = f.metadata → g.offset = f.offset →
      fileSeek g (.start 0) = .ok ({ g with pos := f.offset + foff, limit := 0 }, 0) := by
    intro g hm ho
    rw [fileSeek, hm, hpos]
    simp only [hsz, Nat.min_zero, Nat.add_zero, cursorSeek]
    rw [ho]
    have h1 : u64sub (f.offset + foff) f.offset = foff := by
      simp [u64sub]
    have h2 : u64sub foff foff = 0 := by simp [u64sub]
    rw [h1, h2]
    have h3 : u64sub 0 0 = 0 := by simp [u64sub]
    rw [h3]
  refine ⟨?_, ?_, ?_⟩
  · intro hint
    simp only [fileCheckIntegrity, hint, ciLoop]
    rw [if_neg (by simp [hsz]), hrewind f rfl rfl]
    rfl
  · intro bh hint
    have hout : (f.data.drop f.pos).take (min bsz f.limit) = [] := by
      rw [hlim]; simp
    have hfr : fileRead f bsz = ({ f with pos := f.pos, limit := 0 }, []) := by
      simp [fileRead, hout, hlim]
    have hloop : ciLoop H bsz [bh] f 0 [] =
        ({ f with pos := f.pos, limit := 0 }, false, 0, []) := by
      simp [ciLoop, hfr]
    simp only [fileCheckIntegrity, hint, hloop]
    rw [hrewind ({ f with pos := f.pos, limit := 0 }) rfl rfl]
    rfl
  · simp [computeIntegrity, writerIntegrityLoop]

/-- C4 witness: the amended behaviour at the concrete size-0 streams. -/
theorem c4_empty_file_integrity_witness :
    fileCheckIntegrity H100 fC4zero = .ok (fC4zero, true) ∧
    fileCheckIntegrity H100 fC4one = .ok (fC4one, false) ∧
    (computeIntegrity H100 []).1.blocks = [] :=
  ⟨(c4_empty_file_integrity H100 fC4zero 0 BLOCK_SIZE rfl rfl rfl).1 rfl,
   (c4_empty_file_integrity H100 fC4one 0 BLOCK_SIZE rfl rfl rfl).2.1 [100] rfl,
   (c4_empty_file_integrity H100 fC4zero 0 BLOCK_SIZE rfl rfl rfl).2.2⟩

/-! ## C6: the sub-stream position invariant -/

/-- The payload of a `SeekFrom::Current`/`SeekFrom::End` seek is an
`i64` in Rust; the model carries the range explicitly. -/
def SeekFrom.i64Range : SeekFrom → Prop
  | .start _ => True
  | .current k => -9223372036854775808 ≤ k ∧ k < 9223372036854775808
  | .fromEnd k => -9223372036854775808 ≤ k ∧ k < 9223372036854775808

/-- Well-formedness of a sub-stream operation: seek payloads fit `i64`. -/
def FOp.wf : FOp → Prop
  | .doRead _ => True
  | .doSeek s => s.i64Range

theorem u64sub_of_le {a b : Nat} (h : b ≤ a) : u64sub a b = a - b := by
  simp [u64sub, h]

/-- Reads preserve the sub-stream invariant and touch neither metadata,
base offset nor backing data. -/
theorem fileRead_pres (f : FileState) (n : Nat) (hinv : FInv f) :
    FInv (fileRead f n).1 ∧ (fileRead f n).1.metadata = f.metadata ∧
      (fileRead f n).1.offset = f.offset ∧ (fileRead f n).1.data = f.data := by
  obtain ⟨hlim, hposinv⟩ := hinv
  have hklen : ((f.data.drop f.pos).take (min n f.limit)).length ≤ f.limit := by
    simp [List.length_take]
  refine ⟨⟨?_, ?_⟩, rfl, rfl, rfl⟩
  · show f.limit - ((f.data.drop f.pos).take (min n f.limit)).length ≤ f.metadata.size
    omega
  · show (match f.metadata.pos with
      | .offset foff =>
        f.pos + ((f.data.drop f.pos).take (min n f.limit)).length =
          f.offset + foff +
            (f.metadata.size - (f.limit - ((f.data.drop f.pos).take (min n f.limit)).length))
      | .unpacked => True)
    rcases hfp : f.metadata.pos with foff | _
    · rw [hfp] at hposinv
      omega
    · trivial


theorem negAsU64_nonpos {k : Int} (h1 : -18446744073709551616 < k) (h2 : k ≤ 0) :
    (negAsU64 k : Int) = -k := by
  rw [negAsU64, show ((U64MOD : Nat) : Int) = 18446744073709551616 from rfl,
    Int.emod_eq_of_lt (by omega) (by omega), Int.toNat_of_nonneg (by omega)]

theorem negAsU64_pos {k : Int} (h1 : 0 < k) (h2 : k < 18446744073709551616) :
    (negAsU64 k : Int) = 18446744073709551616 - k := by
  rw [negAsU64, show ((U64MOD : Nat) : Int) = 18446744073709551616 from rfl]
  have e : -k = (18446744073709551616 - k) + 18446744073709551616 * (-1) := by ring
  rw [e, Int.add_mul_emod_self_left, Int.emod_eq_of_lt (by omega) (by omega),
    Int.toNat_of_nonneg (by omega)]

/-- The two chained subtractions of `File::poll_complete`
(`result - self.offset - self.metadata.offset()`), in bounds. -/
theorem u64sub_rel {base foff : Nat} (N : Nat) (h : base + foff ≤ N) :
    u64sub (u64sub N base) foff = N - base - foff := by
  rw [u64sub_of_le (show base ≤ N by omega), u64sub_of_le (show foff ≤ N - base by omega)]

/-- Common tail of the seek cases: once the completed seek is known to
produce cursor `N = base + offset + R` with reported position `R ≤ size`,
all postconditions and the invariant follow. -/
theorem seek_finish {f f' : FileState} {p : Nat} {foff N R : Nat}
    (hfp : f.metadata.pos = .offset foff)
    (hs : (Except.ok ({ f with pos := N, limit := u64sub f.metadata.size R }, R) :
        Except SeekErr (FileState × Nat)) = .ok (f', p))
    (hR : R ≤ f.metadata.size) (hN : N = f.offset + foff + R) :
    p ≤ f.metadata.size ∧ f'.limit = f.metadata.size - p ∧
      f'.metadata = f.metadata ∧ f'.offset = f.offset ∧ f'.data = f.data ∧ FInv f' := by
  simp only [Except.ok.injEq, Prod.mk.injEq] at hs
  obtain ⟨hf', hp⟩ := hs
  subst hf' hp
  refine ⟨hR, ?_, rfl, rfl, rfl, ?_, ?_⟩
  · show u64sub f.metadata.size R = f.metadata.size - R
    exact u64sub_of_le hR
  · show u64sub f.metadata.size R ≤ f.metadata.size
    rw [u64sub_of_le hR]
    omega
  · show (match f.metadata.pos with
      | .offset foff2 => N = f.offset + foff2 +
          (f.metadata.size - u64sub f.metadata.size R)
      | .unpacked => True)
    rw [hfp, u64sub_of_le hR]
    omega

/-- A completed seek from an invariant-satisfying state reports a
relative position within `[0, size]`, sets the remaining limit to
`size - p`, leaves metadata/base/data alone, and re-establishes the
invariant. Requires `size < 2^63` (because of the `u64 → i64` cast in
the `Current` clamp) and an `i64`-ranged seek payload. -/
theorem fileSeek_ok_spec {f f' : FileState} {sk : SeekFrom} {p : Nat}
    (hsz : f.metadata.size < 9223372036854775808) (hinv : FInv f)
    (hrange : sk.i64Range) (hs : fileSeek f sk = .ok (f', p)) :
    p ≤ f.metadata.size ∧ f'.limit = f.metadata.size - p ∧
      f'.metadata = f.metadata ∧ f'.offset = f.offset ∧ f'.data = f.data ∧ FInv f' := by
  obtain ⟨hlim, hposinv⟩ := hinv
  rcases hfp : f.metadata.pos with foff | _
  case unpacked =>
    rw [fileSeek, hfp] at hs
    simp at hs
  rw [hfp] at hposinv
  rw [fileSeek, hfp] at hs
  have hcrp : u64sub f.metadata.size f.limit = f.metadata.size - f.limit :=
    u64sub_of_le hlim
  rcases sk with k | k | k
  · -- SeekFrom::Start(k): clamp to `offset + min size k`.
    simp only [hcrp, cursorSeek] at hs
    rw [u64sub_rel (f.offset + foff + min f.metadata.size k) (by omega)] at hs
    rw [show f.offset + foff + min f.metadata.size k - f.offset - foff =
        min f.metadata.size k by omega] at hs
    exact seek_finish hfp hs (by omega) rfl
  · -- SeekFrom::Current(k).
    obtain ⟨hlo, hhi⟩ := hrange
    simp only [hcrp] at hs
    by_cases hg : negAsU64 k > f.metadata.size - f.limit
    · rw [if_pos hg] at hs
      simp at hs
    rw [if_neg hg] at hs
    push_neg at hg
    have hk0 : k ≤ 0 := by
      by_contra hpos
      push_neg at hpos
      have := negAsU64_pos hpos (by omega)
      omega
    have hnegk : (negAsU64 k : Int) = -k := negAsU64_nonpos (by omega) hk0
    have hsubl : u64sub f.metadata.size (f.metadata.size - f.limit) = f.limit := by
      rw [u64sub_of_le (by omega)]
      omega
    have hcast : u64AsI64 f.limit = (f.limit : Int) := by
      rw [u64AsI64, if_pos (by omega)]
    simp only [hsubl, hcast, min_eq_left (show k ≤ (f.limit : Int) by omega)] at hs
    by_cases hneg : (f.pos : Int) + k < 0
    · have hcs : cursorSeek f.data.length f.pos (.current k) = none := by
        rw [cursorSeek, if_pos hneg]
      simp only [hcs] at hs
      simp at hs
    · have hcs : cursorSeek f.data.length f.pos (.current k) =
          some ((f.pos : Int) + k).toNat := by
        rw [cursorSeek, if_neg hneg]
      simp only [hcs] at hs
      have habs : ((((f.pos : Int) + k).toNat : Nat) : Int) = (f.pos : Int) + k :=
        Int.toNat_of_nonneg (by omega)
      have hge : f.offset + foff ≤ ((f.pos : Int) + k).toNat := by omega
      rw [u64sub_rel (((f.pos : Int) + k).toNat) hge] at hs
      exact seek_finish hfp hs (by omega) (by omega)
  · -- SeekFrom::End(k).
    obtain ⟨hlo, hhi⟩ := hrange
    simp only [hcrp] at hs
    by_cases hk0 : (0 : Int) < k
    · rw [if_pos hk0] at hs
      simp only [cursorSeek] at hs
      rw [u64sub_rel (f.offset + foff + f.metadata.size) (by omega)] at hs
      rw [show f.offset + foff + f.metadata.size - f.offset - foff =
          f.metadata.size by omega] at hs
      exact seek_finish hfp hs (by omega) rfl
    rw [if_neg hk0] at hs
    push_neg at hk0
    by_cases hg : negAsU64 k > f.metadata.size
    · rw [if_pos hg] at hs
      simp at hs
    rw [if_neg hg] at hs
    push_neg at hg
    simp only [cursorSeek] at hs
    rw [show u64sub f.metadata.size (negAsU64 k) =
        f.metadata.size - negAsU64 k from u64sub_of_le hg] at hs
    rw [u64sub_rel (f.offset + foff + (f.metadata.size - negAsU64 k)) (by omega)] at hs
    rw [show f.offset + foff + (f.metadata.size - negAsU64 k) - f.offset - foff =
        f.metadata.size - negAsU64 k by omega] at hs
    exact seek_finish hfp hs (by omega) rfl

/-- Any sequence of reads and well-formed seeks preserves the invariant
(failed seeks leave the state untouched) and never changes the
metadata. -/
theorem runOps_pres (ops : List FOp) :
    ∀ f : FileState, f.metadata.size < 9223372036854775808 → FInv f →
      (∀ op ∈ ops, FOp.wf op) →
      FInv (runOps f ops) ∧ (runOps f ops).metadata = f.metadata := by
  induction ops with
  | nil =>
    intro f _ hinv _
    exact ⟨hinv, rfl⟩
  | cons op rest ih =>
    intro f hsz hinv hwf
    have hop : FOp.wf op := hwf op (by simp)
    have hrest : ∀ o ∈ rest, FOp.wf o := fun o ho => hwf o (by simp [ho])
    have hstep : FInv (applyOp f op) ∧ (applyOp f op).metadata = f.metadata := by
      cases op with
      | doRead n =>
        obtain ⟨h1, h2, _, _⟩ := fileRead_pres f n hinv
        exact ⟨h1, h2⟩
      | doSeek sk =>
        rcases hres : fileSeek f sk with e | fp
        · simp only [applyOp, hres]
          exact ⟨hinv, trivial⟩
        · obtain ⟨f', p⟩ := fp
          obtain ⟨_, _, h3, _, _, h6⟩ := fileSeek_ok_spec hsz hinv hop hres
          simp only [applyOp, hres]
          exact ⟨h6, h3⟩
    obtain ⟨hstepInv, hstepMeta⟩ := hstep
    rw [runOps]
    have hrec := ih (applyOp f op) (by rw [hstepMeta]; exact hsz) hstepInv hrest
    exact ⟨hrec.1, hrec.2.trans hstepMeta⟩

/-- C6: sub-stream position invariant. For every `File` of size
`S < 2^63` satisfying the invariant: (a) the invariant is preserved by
every sequence of reads and (well-formed) seeks, failed seeks leaving
the state unchanged; (b) every successfully completed seek reports a
position `p` with `0 ≤ p ≤ S` and sets the remaining read limit to
`S - p`; (c) at `p = S` (remaining limit 0) any read yields 0 bytes. -/
theorem c6_substream_invariant (f : FileState)
    (hsz : f.metadata.size < 9223372036854775808) (hinv : FInv f) :
    (∀ ops : List FOp, (∀ op ∈ ops, FOp.wf op) → FInv (runOps f ops)) ∧
    (∀ (sk : SeekFrom) (f' : FileState) (p : Nat), sk.i64Range →
      fileSeek f sk = .ok (f', p) →
      p ≤ f.metadata.size ∧ f'.limit = f.metadata.size - p ∧ FInv f') ∧
    (f.limit = 0 → ∀ n, (fileRead f n).2 = []) := by
  refine ⟨fun ops hwf => (runOps_pres ops f hsz hinv hwf).1,
    fun sk f' p hr hs => ?_, fun hlim0 n => ?_⟩
  · obtain ⟨h1, h2, _, _, _, h6⟩ := fileSeek_ok_spec hsz hinv hr hs
    exact ⟨h1, h2, h6⟩
  · show (f.data.drop f.pos).take (min n f.limit) = []
    rw [hlim0]
    simp

/-- A 5-byte sub-stream at relative position 0. -/
def fC6 : FileState := ⟨0, ⟨.offset 0, 5, false, none⟩, 0, 5, [1, 2, 3, 4, 5]⟩

/-- The same sub-stream at relative position 5 (remaining limit 0). -/
def fC6atEnd : FileState := ⟨0, ⟨.offset 0, 5, false, none⟩, 5, 0, [1, 2, 3, 4, 5]⟩

/-- C6 witness: invariant preservation after a concrete read, the seek
postcondition for a concrete completed `Start(3)` seek, and a 0-byte
read at the end of the 5-byte sub-stream. -/
theorem c6_substream_invariant_witness :
    FInv (runOps fC6 [FOp.doRead 2]) ∧
    (3 ≤ 5 ∧ ({ fC6 with pos := 3, limit := 2 } : FileState).limit = 5 - 3 ∧
      FInv ({ fC6 with pos := 3, limit := 2 } : FileState)) ∧
    (fileRead fC6atEnd 7).2 = [] :=
  ⟨(c6_substream_invariant fC6 (by decide) (by simp [FInv, fC6])).1 [FOp.doRead 2]
      (by
        intro op hop
        cases hop with
        | head => trivial
        | tail _ h => cases h),
   (c6_substream_invariant fC6 (by decide) (by simp [FInv, fC6])).2.1
      (SeekFrom.start 3) ({ fC6 with pos := 3, limit := 2 }) 3 trivial rfl,
   (c6_substream_invariant fC6atEnd (by decide) (by simp [FInv, fC6atEnd])).2.2 rfl 7⟩

end Asar
